import Mathlib

/-!
Verification development for the Organizational MCP Servers repository:
the ingestion-and-retrieval pipeline (chunking, deduplication, metadata
sanitization, status state machine, search visibility) and the admin
dashboard search hook.  Python-side values are embedded as Lean data
types; stateful behaviour is embedded as explicit state passing or a step
relation.
-/

namespace MCPOrg

/-! ## Chunk metadata sanitization

Embedded from the fixed `chunk_metadata` construction of
`mcp-shared-core/mcp_knowledge_core.py` as recorded verbatim in
`src/CHAT_SUMMARY_MCP_ORGANIZATIONAL_SERVERS.md` (ChromaDB Metadata
TypeError fix): mandatory fields are built with `str(...)` / `len(...)`
defaults, optional fields `page` and `chunk_id` are added only when the
underlying value is not `None`. -/

/-- Python-side metadata value: `none` models the Python `None`, the
other constructors model the four scalar types ChromaDB accepts. -/
inductive PyVal where
  | none : PyVal
  | bool (b : Bool) : PyVal
  | int (i : Int) : PyVal
  | float (q : ℚ) : PyVal
  | str (s : String) : PyVal
deriving DecidableEq

/-- A metadata value is one of the four ChromaDB scalar types
(boolean, integer, float, string). -/
def PyVal.isScalar : PyVal → Bool
  | .none => false
  | .bool _ => true
  | .int _ => true
  | .float _ => true
  | .str _ => true

/-- Input chunk record as consumed by the metadata builder: each
candidate field may be absent / `None`. -/
structure RawChunk where
  source : Option String
  chunk_type : Option String
  page : Option Int
  chunk_id : Option String

/-- The sanitized metadata payload, embedded from the fixed code:
mandatory fields `source`, `chunk_type`, `timestamp`, `text_length`
always present (with defaults), optional fields `page` and `chunk_id`
appended only when the underlying value is present. `now` stands for
`datetime.now().isoformat()` and `text` for the chunk text. -/
def chunk_metadata (now : String) (text : String) (c : RawChunk) :
    List (String × PyVal) :=
  [("source", PyVal.str (c.source.getD "")),
   ("chunk_type", PyVal.str (c.chunk_type.getD "unknown")),
   ("timestamp", PyVal.str now),
   ("text_length", PyVal.int text.length)]
  ++ (match c.page with
      | some p => [("page", PyVal.int p)]
      | Option.none => [])
  ++ (match c.chunk_id with
      | some s => [("chunk_id", PyVal.str s)]
      | Option.none => [])

/-- C1: every field present in a chunk metadata payload written to the
Vector Index carries one of the four scalar types {boolean, integer,
float, string}; no field is ever a Python `None` — absent underlying
values lead to omission of the field, not to a null-valued field. -/
theorem c1_metadata_no_null (now text : String) (c : RawChunk) :
    ∀ kv ∈ chunk_metadata now text c,
      kv.2 ≠ PyVal.none ∧ kv.2.isScalar = true := by
  intro kv hkv
  unfold chunk_metadata at hkv
  rcases c with ⟨src, ct, pg, cid⟩
  cases pg <;> cases cid <;>
    simp only [List.mem_append, List.mem_cons, List.not_mem_nil,
      or_false, List.mem_singleton] at hkv <;>
    casesm* _ ∨ _ <;> subst_vars <;> simp [PyVal.isScalar]

/-- Witness for C1: the `page` field of a concrete payload is a
non-null integer. -/
theorem c1_metadata_no_null_witness :
    (("page", PyVal.int 3) ∈ chunk_metadata "t" "ab"
      ⟨some "s", Option.none, some 3, Option.none⟩) ∧
    ((("page", PyVal.int 3) : String × PyVal).2 ≠ PyVal.none ∧
      (("page", PyVal.int 3) : String × PyVal).2.isScalar = true) :=
  ⟨by decide, c1_metadata_no_null "t" "ab"
    ⟨some "s", Option.none, some 3, Option.none⟩
    ("page", PyVal.int 3) (by decide)⟩

/-- C9: every sanitized payload always contains the four mandatory
fields `source` (string), `chunk_type` (string), `timestamp` (string)
and `text_length` (integer), with defaults substituted when the input
chunk lacks them, while the optional fields `page` (integer) and
`chunk_id` (string) are present exactly when the corresponding input
value is non-`None`. -/
theorem c9_metadata_fields (now text : String) (c : RawChunk) :
    (chunk_metadata now text c).lookup "source"
        = some (PyVal.str (c.source.getD "")) ∧
    (chunk_metadata now text c).lookup "chunk_type"
        = some (PyVal.str (c.chunk_type.getD "unknown")) ∧
    (chunk_metadata now text c).lookup "timestamp"
        = some (PyVal.str now) ∧
    (chunk_metadata now text c).lookup "text_length"
        = some (PyVal.int text.length) ∧
    (chunk_metadata now text c).lookup "page"
        = c.page.map PyVal.int ∧
    (chunk_metadata now text c).lookup "chunk_id"
        = c.chunk_id.map PyVal.str := by
  rcases c with ⟨src, ct, pg, cid⟩
  cases pg <;> cases cid <;>
    simp [chunk_metadata, List.lookup]

/-! ## Admin dashboard search hook

Embedded from `useSearch` in `src/unnamed/part_007`: the effect clears
results for a falsy query without calling the backend; for a non-empty
query it sets loading, clears the error, fetches, stores results on
success or the error on failure, and clears loading in both cases. -/

/-- State held by the `useSearch` hook: `results`, `loading`, `error`. -/
structure SearchState (E R : Type) where
  results : List R
  loading : Bool
  error : Option E
deriving DecidableEq

/-- Initial hook state from `useState` in `src/unnamed/part_007`:
results `[]`, loading `false`, error `null`. -/
def initSearchState (E R : Type) : SearchState E R :=
  { results := [], loading := false, error := Option.none }

/-- One run of the `useEffect` body of `useSearch` for a query value,
with the backend call `fetchSearchResults` abstracted as `fetch`.
Returns the resulting hook state and whether a backend request was
issued.  Mirrors `src/unnamed/part_007` lines 9-29. -/
def useSearchEffect {E R : Type} (query : String)
    (fetch : String → Except E (List R)) (st : SearchState E R) :
    SearchState E R × Bool :=
  if query = "" then
    ({ st with results := [] }, false)
  else
    match fetch query with
    | Except.ok data =>
        ({ results := data, loading := false, error := Option.none }, true)
    | Except.error e =>
        ({ results := st.results, loading := false, error := some e }, true)

/-! ## Dashboard display constants

Embedded from `src/mcp-admin-dashboard/src/utils/constants.ts` lines
3-8: the document status labels used by the dashboard UI. -/

/-- The `DOCUMENT_STATUSES` constant of `constants.ts`. -/
def DOCUMENT_STATUSES : List (String × String) :=
  [("UPLOADED", "uploaded"), ("PROCESSING", "processing"),
   ("PROCESSED", "processed"), ("ERROR", "error")]

/-! ## Document processing status state machine

Modelled from the spec: the pipeline state machine of the Ingestion
Coordinator and the Metadata Store update rule
(`received → extracting → chunking → embedding → indexed`, `failed`
reachable from any non-terminal state, terminal states `indexed` and
`failed`, out-of-order regression rejected with
`StaleStatusTransition`).  The implementing file
`mcp-shared-core/mcp_knowledge_core.py` is not part of the source
tree; only its description in `spec.md` and
`CHAT_SUMMARY_MCP_ORGANIZATIONAL_SERVERS.md` is. -/

/-- Processing status of a Document. -/
inductive Status where
  | received
  | extracting
  | chunking
  | embedding
  | indexed
  | failed
deriving DecidableEq, Fintype

/-- Position of a status along the linear pipeline chain. -/
def Status.rank : Status → Nat
  | .received => 0
  | .extracting => 1
  | .chunking => 2
  | .embedding => 3
  | .indexed => 4
  | .failed => 5

/-- Terminal states: `indexed` and `failed`. -/
def Status.isTerminal : Status → Bool
  | .indexed => true
  | .failed => true
  | _ => false

/-- Modelled from the spec: whether a status update is a legal forward
move of the state machine: never from a terminal state; to `failed`
from any non-terminal state; otherwise strictly forward along the
chain. -/
def canAdvance (cur next : Status) : Bool :=
  if cur.isTerminal then false
  else if next = Status.failed then true
  else decide (cur.rank < next.rank)

/-- Error raised on an out-of-order status update. -/
inductive UpdateErr where
  | StaleStatusTransition
deriving DecidableEq

/-- Modelled from the spec: `update_status` against the stored status:
a legal forward update replaces the stored status, anything else is
rejected with `StaleStatusTransition` and leaves the stored status
unchanged. -/
def update_status (cur next : Status) : Status × Option UpdateErr :=
  if canAdvance cur next then (next, Option.none)
  else (cur, some UpdateErr.StaleStatusTransition)

/-- C6: a stored Document status only ever advances along the chain
`received → extracting → chunking → embedding → indexed`, with
`failed` reachable from exactly the non-terminal states and `indexed`
and `failed` terminal; every update that is not a strict forward move
is rejected with `StaleStatusTransition` and leaves the stored status
unchanged. -/
theorem c6_status_monotone :
    ∀ cur next : Status,
      ((update_status cur next).2 = Option.none →
        (update_status cur next).1 = next ∧
        cur.isTerminal = false ∧
        (next = Status.failed ∨ cur.rank < next.rank)) ∧
      (cur.isTerminal = true ∨
          (next ≠ Status.failed ∧ next.rank ≤ cur.rank) →
        update_status cur next
          = (cur, some UpdateErr.StaleStatusTransition)) := by
  decide

/-- Witness for C6: a regression from `indexed` back to `received` is
rejected with `StaleStatusTransition` and the stored status stays
`indexed`. -/
theorem c6_status_monotone_witness :
    update_status Status.indexed Status.received
      = (Status.indexed, some UpdateErr.StaleStatusTransition) :=
  (c6_status_monotone Status.indexed Status.received).2
    (Or.inl (by decide))

/-! ## Ingestion pipeline and search visibility

Modelled from the spec: the Ingestion Coordinator executes stages in
order, the Vector Index upsert of all of a document's chunks is one
batch commit performed while the document is still in `embedding`, and
the Metadata Store status flips to `indexed` only after that upsert
has been acknowledged (write-then-publish ordering).  Search queries
only consider chunks of documents in state `indexed`.  The
implementing file `mcp-shared-core/mcp_knowledge_core.py` is not part
of the source tree. -/

/-- Static environment of the pipeline: how many chunks deterministic
chunking produces for each document hash. -/
structure PipeEnv where
  chunkCount : String → Nat

/-- Joint state of the Metadata Store and the Vector Index: per hash,
the stored processing status (`none` = no record) and the number of
that document's chunks present in the Vector Index. -/
structure PipeState where
  status : String → Option Status
  index : String → Nat

/-- Initial state: no document records, empty Vector Index. -/
def initPipe : PipeState :=
  { status := fun _ => Option.none, index := fun _ => 0 }

/-- Modelled from the spec: one atomic step of the ingestion pipeline.
`upload` (re)creates a record in `received` and wholesale-replaces any
stale chunks; the stage steps advance the status; `upsert` writes all
chunks of a document in one acknowledged batch while the status is
still `embedding`; `publish` flips the status to `indexed` only once
all chunks are present; `fail` moves any non-terminal document to
`failed`. -/
inductive PipeStep (env : PipeEnv) : PipeState → PipeState → Prop
  | upload (st : PipeState) (h : String)
      (hpre : st.status h = Option.none ∨ st.status h = some Status.failed) :
      PipeStep env st
        { status := fun x => if x = h then some Status.received else st.status x,
          index := fun x => if x = h then 0 else st.index x }
  | extract (st : PipeState) (h : String)
      (hpre : st.status h = some Status.received) :
      PipeStep env st
        { st with status :=
            fun x => if x = h then some Status.extracting else st.status x }
  | chunkStage (st : PipeState) (h : String)
      (hpre : st.status h = some Status.extracting) :
      PipeStep env st
        { st with status :=
            fun x => if x = h then some Status.chunking else st.status x }
  | embed (st : PipeState) (h : String)
      (hpre : st.status h = some Status.chunking) :
      PipeStep env st
        { st with status :=
            fun x => if x = h then some Status.embedding else st.status x }
  | upsert (st : PipeState) (h : String)
      (hpre : st.status h = some Status.embedding) :
      PipeStep env st
        { st with index :=
            fun x => if x = h then env.chunkCount h else st.index x }
  | publish (st : PipeState) (h : String)
      (hpre : st.status h = some Status.embedding)
      (hall : st.index h = env.chunkCount h) :
      PipeStep env st
        { st with status :=
            fun x => if x = h then some Status.indexed else st.status x }
  | fail (st : PipeState) (h : String) (s : Status)
      (hpre : st.status h = some s) (hnt : s.isTerminal = false) :
      PipeStep env st
        { st with status :=
            fun x => if x = h then some Status.failed else st.status x }

/-- States reachable from the empty system by pipeline steps. -/
def PipeReach (env : PipeEnv) (st : PipeState) : Prop :=
  Relation.ReflTransGen (PipeStep env) initPipe st

/-- Modelled from the spec: the number of a document's chunks a search
query can observe — queries only consider chunks belonging to
documents in state `indexed`. -/
def searchVisible (st : PipeState) (h : String) : Nat :=
  if st.status h = some Status.indexed then st.index h else 0

/-- Per-step preservation of the visibility invariant: an `indexed`
document has all of its chunks in the Vector Index, and the index
never holds a proper nonempty subset of a document's chunks. -/
theorem pipeStep_inv {env : PipeEnv} {st st' : PipeState}
    (hstep : PipeStep env st st')
    (hinv : ∀ h, (st.status h = some Status.indexed →
        st.index h = env.chunkCount h) ∧
      (st.index h = 0 ∨ st.index h = env.chunkCount h)) :
    ∀ h, (st'.status h = some Status.indexed →
        st'.index h = env.chunkCount h) ∧
      (st'.index h = 0 ∨ st'.index h = env.chunkCount h) := by
  intro h
  cases hstep with
  | upload g hpre =>
    by_cases hx : h = g
    · subst hx; simp
    · simpa [hx] using hinv h
  | extract g hpre =>
    by_cases hx : h = g
    · subst hx; simpa using (hinv h).2
    · simpa [hx] using hinv h
  | chunkStage g hpre =>
    by_cases hx : h = g
    · subst hx; simpa using (hinv h).2
    · simpa [hx] using hinv h
  | embed g hpre =>
    by_cases hx : h = g
    · subst hx; simpa using (hinv h).2
    · simpa [hx] using hinv h
  | upsert g hpre =>
    by_cases hx : h = g
    · subst hx; simp
    · simpa [hx] using hinv h
  | publish g hpre hall =>
    by_cases hx : h = g
    · subst hx; exact ⟨fun _ => by simpa using hall,
        by simpa using (hinv h).2⟩
    · simpa [hx] using hinv h
  | fail g s hpre hnt =>
    by_cases hx : h = g
    · subst hx; simpa using (hinv h).2
    · simpa [hx] using hinv h

/-- The visibility invariant holds in every reachable state. -/
theorem pipeReach_inv {env : PipeEnv} {st : PipeState}
    (hr : PipeReach env st) :
    ∀ h, (st.status h = some Status.indexed →
        st.index h = env.chunkCount h) ∧
      (st.index h = 0 ∨ st.index h = env.chunkCount h) := by
  induction hr with
  | refl => intro h; exact ⟨by simp [initPipe], Or.inl rfl⟩
  | tail _ hstep ih => exact pipeStep_inv hstep ih

/-- C2: in every reachable pipeline state, a query that observes a
document in state `indexed` sees all of that document's chunks, a
query issued while the document is in any earlier state sees none of
them, and the Vector Index never holds a proper nonempty subset of a
document's chunks — status flips to `indexed` only after the batch
upsert of all chunks has been acknowledged. -/
theorem c2_indexed_visibility (env : PipeEnv) (st : PipeState)
    (hr : PipeReach env st) (h : String) :
    (st.status h = some Status.indexed →
      searchVisible st h = env.chunkCount h) ∧
    (∀ s : Status, st.status h = some s → s ≠ Status.indexed →
      searchVisible st h = 0) ∧
    (st.index h = 0 ∨ st.index h = env.chunkCount h) := by
  have hinv := pipeReach_inv hr h
  refine ⟨fun hidx => ?_, fun s hs hne => ?_, hinv.2⟩
  · simp [searchVisible, hidx, hinv.1 hidx]
  · simp [searchVisible, hs]
    intro he
    exact absurd (by simpa [hs] using he.symm ▸ hs) (by simp_all)

/-- Witness for C2: the invariant instantiated in a concrete reachable
state, obtained by uploading one document into the empty system. -/
theorem c2_indexed_visibility_witness :
    searchVisible
      { status := fun x => if x = "doc" then some Status.received
          else initPipe.status x,
        index := fun x => if x = "doc" then 0 else initPipe.index x }
      "doc" = 0 :=
  (c2_indexed_visibility ⟨fun _ => 2⟩ _
      (Relation.ReflTransGen.single
        (PipeStep.upload initPipe "doc" (Or.inl rfl))) "doc").2.1
      Status.received (by simp) (by decide)

/-! ## Upload deduplication

Modelled from the spec: the upload entry point of the Ingestion
Coordinator — compute the content hash; an existing record in state
`indexed` for the same domain short-circuits (idempotent no-op); an
existing record in state `failed` re-enters the pipeline from
`received`; an in-flight record defers to the running ingestion (never
double-processes); otherwise a fresh record is created in `received`.
The content hash is modelled as the raw byte sequence itself, a
collision-free fingerprint. -/

/-- A Document row of the Metadata Store. -/
structure DocRec where
  hash : List Nat
  domain : String
  status : Status
deriving DecidableEq

/-- The Metadata Store document table. -/
structure MetaStore where
  docs : List DocRec
deriving DecidableEq

/-- Whether a row belongs to the given (content hash, domain) key. -/
def keyMatches (h : List Nat) (d : String) (r : DocRec) : Bool :=
  decide (r.hash = h ∧ r.domain = d)

/-- Lookup of the document record for a (hash, domain) key. -/
def findDoc (st : MetaStore) (h : List Nat) (d : String) : Option DocRec :=
  st.docs.find? (keyMatches h d)

/-- Number of document records stored under a (hash, domain) key. -/
def countKey (st : MetaStore) (h : List Nat) (d : String) : Nat :=
  (st.docs.filter (keyMatches h d)).length

/-- Result of the upload entry point: the returned record, whether the
processing pipeline was started, and the updated store. -/
structure UploadResult where
  record : DocRec
  enqueued : Bool
  store : MetaStore
deriving DecidableEq

/-- Modelled from the spec: the upload entry point with dedup logic. -/
def upload (st : MetaStore) (bytes : List Nat) (domain : String) :
    UploadResult :=
  match findDoc st bytes domain with
  | some r =>
      if r.status = Status.indexed then
        { record := r, enqueued := false, store := st }
      else if r.status = Status.failed then
        { record := { r with status := Status.received },
          enqueued := true,
          store := ⟨st.docs.map (fun q =>
            if keyMatches bytes domain q then
              { q with status := Status.received }
            else q)⟩ }
      else
        { record := r, enqueued := false, store := st }
  | Option.none =>
      { record := ⟨bytes, domain, Status.received⟩, enqueued := true,
        store := ⟨st.docs ++ [⟨bytes, domain, Status.received⟩]⟩ }

/-- A found record is counted by `countKey`. -/
theorem countKey_pos_of_findDoc {st : MetaStore} {h : List Nat}
    {d : String} {r : DocRec} (hf : findDoc st h d = some r) :
    1 ≤ countKey st h d := by
  have hmem := List.mem_of_find?_eq_some hf
  have hp := List.find?_some hf
  have : r ∈ st.docs.filter (keyMatches h d) :=
    List.mem_filter.2 ⟨hmem, hp⟩
  have := List.length_pos.2 (List.ne_nil_of_mem this)
  simpa [countKey] using this

/-- An absent key has zero records. -/
theorem countKey_zero_of_findDoc_none {st : MetaStore} {h : List Nat}
    {d : String} (hf : findDoc st h d = Option.none) :
    countKey st h d = 0 := by
  have hall := List.find?_eq_none.1 hf
  have : st.docs.filter (keyMatches h d) = [] := by
    apply List.filter_eq_nil_iff.2
    intro a ha
    exact hall a ha
  simp [countKey, this]

/-- Resetting the status of the matching rows leaves key membership
unchanged. -/
theorem keyMatches_reset (bytes : List Nat) (domain : String)
    (q : DocRec) :
    keyMatches bytes domain
      (if keyMatches bytes domain q then
        { q with status := Status.received } else q)
      = keyMatches bytes domain q := by
  by_cases hq : q.hash = bytes ∧ q.domain = domain
  · obtain ⟨h1, h2⟩ := hq
    simp [keyMatches, h1, h2]
  · simp [keyMatches, hq]

/-- Lookup in the reset store is the reset of the lookup. -/
theorem findDoc_reset (st : MetaStore) (bytes : List Nat)
    (domain : String) :
    findDoc ⟨st.docs.map (fun q =>
        if keyMatches bytes domain q then
          { q with status := Status.received } else q)⟩ bytes domain
      = (findDoc st bytes domain).map (fun q =>
          if keyMatches bytes domain q then
            { q with status := Status.received } else q) := by
  unfold findDoc
  rw [List.find?_map]
  have hcomp : (keyMatches bytes domain ∘ fun q =>
      if keyMatches bytes domain q then
        { q with status := Status.received } else q)
      = keyMatches bytes domain :=
    funext fun q => keyMatches_reset bytes domain q
  rw [hcomp]

/-- Resetting statuses does not change the per-key record count. -/
theorem countKey_reset (st : MetaStore) (bytes : List Nat)
    (domain : String) :
    countKey ⟨st.docs.map (fun q =>
        if keyMatches bytes domain q then
          { q with status := Status.received } else q)⟩ bytes domain
      = countKey st bytes domain := by
  unfold countKey
  rw [List.filter_map]
  rw [List.length_map]
  congr 1
  apply List.filter_congr
  intro q _
  exact keyMatches_reset bytes domain q

/-- C3: an upload whose content hash matches an existing `indexed`
record for the same domain is an idempotent no-op — it returns the
existing record, does not start the pipeline, and leaves the store
unchanged; moreover two consecutive uploads of identical bytes under
one domain leave exactly one Document record and the second call never
starts the pipeline. -/
theorem c3_upload_idempotent (st : MetaStore) (bytes : List Nat)
    (domain : String) (hwf : countKey st bytes domain ≤ 1) :
    (∀ r : DocRec, findDoc st bytes domain = some r →
        r.status = Status.indexed →
        upload st bytes domain
          = { record := r, enqueued := false, store := st }) ∧
    countKey (upload (upload st bytes domain).store bytes
        domain).store bytes domain = 1 ∧
    (upload (upload st bytes domain).store bytes domain).enqueued
        = false := by
  refine ⟨fun r hf hidx => by simp [upload, hf, hidx], ?_⟩
  rcases hfind : findDoc st bytes domain with _ | r
  · -- fresh upload: a new record in `received` is appended
    have hcnt := countKey_zero_of_findDoc_none hfind
    have hkey : keyMatches bytes domain ⟨bytes, domain, Status.received⟩
        = true := by simp [keyMatches]
    have hfind1 : findDoc ⟨st.docs ++ [⟨bytes, domain, Status.received⟩]⟩
        bytes domain = some ⟨bytes, domain, Status.received⟩ := by
      unfold findDoc
      rw [List.find?_append]
      unfold findDoc at hfind
      simp [hfind, List.find?, hkey]
    have hstore : (upload st bytes domain).store
        = ⟨st.docs ++ [⟨bytes, domain, Status.received⟩]⟩ := by
      simp [upload, hfind]
    rw [hstore]
    have h2 : upload ⟨st.docs ++ [⟨bytes, domain, Status.received⟩]⟩
        bytes domain
        = { record := ⟨bytes, domain, Status.received⟩, enqueued := false,
            store := ⟨st.docs ++ [⟨bytes, domain, Status.received⟩]⟩ } := by
      simp [upload, hfind1]
    rw [h2]
    refine ⟨?_, rfl⟩
    simp only [countKey, List.filter_append]
    simp only [countKey] at hcnt
    simp [hcnt, hkey]
  · have hone : countKey st bytes domain = 1 :=
      le_antisymm hwf (countKey_pos_of_findDoc hfind)
    by_cases hidx : r.status = Status.indexed
    · -- existing `indexed` record: both uploads short-circuit
      have hstore : (upload st bytes domain).store = st := by
        simp [upload, hfind, hidx]
      rw [hstore]
      have h2 : upload st bytes domain
          = { record := r, enqueued := false, store := st } := by
        simp [upload, hfind, hidx]
      rw [h2]
      exact ⟨hone, rfl⟩
    · by_cases hfl : r.status = Status.failed
      · -- existing `failed` record: first upload resets to `received`,
        -- the second upload defers to the in-flight run
        have hkr : keyMatches bytes domain r = true := List.find?_some hfind
        have hstore : (upload st bytes domain).store
            = ⟨st.docs.map (fun q =>
                if keyMatches bytes domain q then
                  { q with status := Status.received } else q)⟩ := by
          simp [upload, hfind, hidx, hfl]
        rw [hstore]
        have hfind1 : findDoc ⟨st.docs.map (fun q =>
              if keyMatches bytes domain q then
                { q with status := Status.received } else q)⟩ bytes domain
            = some { r with status := Status.received } := by
          rw [findDoc_reset, hfind]
          simp [hkr]
        have h2 : upload ⟨st.docs.map (fun q =>
              if keyMatches bytes domain q then
                { q with status := Status.received } else q)⟩ bytes domain
            = { record := { r with status := Status.received },
                enqueued := false,
                store := ⟨st.docs.map (fun q =>
                  if keyMatches bytes domain q then
                    { q with status := Status.received } else q)⟩ } := by
          simp [upload, hfind1]
        rw [h2]
        refine ⟨?_, rfl⟩
        rw [countKey_reset]
        exact hone
      · -- existing in-flight record: both uploads defer
        have hstore : (upload st bytes domain).store = st := by
          simp [upload, hfind, hidx, hfl]
        rw [hstore]
        have h2 : upload st bytes domain
            = { record := r, enqueued := false, store := st } := by
          simp [upload, hfind, hidx, hfl]
        rw [h2]
        exact ⟨hone, rfl⟩

/-- Witness for C3: two uploads of the bytes `[1]` under domain `d`
into the empty store leave exactly one record and the second call does
not start the pipeline. -/
theorem c3_upload_idempotent_witness :
    countKey ⟨[]⟩ [1] "d" ≤ 1 ∧
    countKey (upload (upload (⟨[]⟩ : MetaStore) [1] "d").store [1]
        "d").store [1] "d" = 1 ∧
    (upload (upload (⟨[]⟩ : MetaStore) [1] "d").store [1] "d").enqueued
        = false :=
  ⟨by decide, (c3_upload_idempotent ⟨[]⟩ [1] "d" (by decide)).2⟩

/-- C4: a prior record that ended in `failed` does not short-circuit a
re-upload of the same bytes: the upload starts the pipeline again and
the record re-enters it from state `received`. -/
theorem c4_failed_no_short_circuit (st : MetaStore) (bytes : List Nat)
    (domain : String) (r : DocRec)
    (hf : findDoc st bytes domain = some r)
    (hfail : r.status = Status.failed) :
    (upload st bytes domain).enqueued = true ∧
    (upload st bytes domain).record
      = { r with status := Status.received } ∧
    findDoc (upload st bytes domain).store bytes domain
      = some { r with status := Status.received } := by
  have hidx : r.status ≠ Status.indexed := by
    rw [hfail]; decide
  have hkr : keyMatches bytes domain r = true := List.find?_some hf
  refine ⟨by simp [upload, hf, hidx, hfail], by simp [upload, hf, hidx, hfail], ?_⟩
  have hstore : (upload st bytes domain).store
      = ⟨st.docs.map (fun q =>
          if keyMatches bytes domain q then
            { q with status := Status.received } else q)⟩ := by
    simp [upload, hf, hidx, hfail]
  rw [hstore, findDoc_reset, hf]
  simp [hkr]

/-- Witness for C4: re-uploading the bytes `[2]` over a store holding
only their `failed` record restarts the pipeline from `received`. -/
theorem c4_failed_no_short_circuit_witness :
    (upload ⟨[⟨[2], "d", Status.failed⟩]⟩ [2] "d").enqueued = true ∧
    (upload ⟨[⟨[2], "d", Status.failed⟩]⟩ [2] "d").record
      = ⟨[2], "d", Status.received⟩ ∧
    findDoc (upload ⟨[⟨[2], "d", Status.failed⟩]⟩ [2] "d").store [2] "d"
      = some ⟨[2], "d", Status.received⟩ :=
  c4_failed_no_short_circuit ⟨[⟨[2], "d", Status.failed⟩]⟩ [2] "d"
    ⟨[2], "d", Status.failed⟩ (by decide) rfl

/-! ## Query-time error propagation versus empty results

Backend side modelled from the spec: `search_knowledge` encodes the
query through the Embedding Gateway and collects the chunks of
`indexed` documents; a gateway failure is surfaced as an error, never
silently degraded to an empty result list.  Frontend side embedded
from `useSearch` in `src/unnamed/part_007`. -/

/-- Query-time failure of the Embedding Gateway. -/
inductive QueryErr where
  | EmbeddingUnavailable
deriving DecidableEq

/-- Modelled from the spec: the `search_knowledge` entry point over
the pipeline state.  `gate` is the outcome of encoding the query
through the Embedding Gateway; on success the result ranks the chunks
of documents in state `indexed` among the known hashes. -/
def search_knowledge (gate : Except QueryErr (List Int))
    (st : PipeState) (hashes : List String) :
    Except QueryErr (List (String × Nat)) :=
  match gate with
  | Except.error e => Except.error e
  | Except.ok _ =>
      Except.ok ((hashes.map (fun h =>
        if st.status h = some Status.indexed then
          (List.range (st.index h)).map (fun i => (h, i))
        else [])).flatten)

/-- C5: a search returns an empty sequence exactly when there are no
matches — a query over hashes none of which is `indexed` yields
`ok []` and no error, a query over an `indexed` document with chunks
yields a nonempty result, and a query-time Embedding Gateway failure
is surfaced as an error rather than converted into an empty result;
on the dashboard side the `useSearch` hook stores a fetch failure in
its error state and does not replace the results with an empty list. -/
theorem c5_empty_means_no_matches :
    (∀ (st : PipeState) (hashes : List String) (v : List Int),
        (∀ h ∈ hashes, st.status h ≠ some Status.indexed) →
        search_knowledge (Except.ok v) st hashes = Except.ok []) ∧
    (∀ (st : PipeState) (hashes : List String) (e : QueryErr),
        search_knowledge (Except.error e) st hashes = Except.error e) ∧
    (∀ (st : PipeState) (hashes : List String) (v : List Int)
        (h : String), h ∈ hashes → st.status h = some Status.indexed →
        0 < st.index h →
        ∃ l, search_knowledge (Except.ok v) st hashes = Except.ok l ∧
          l ≠ []) ∧
    (∀ (E R : Type) (q : String) (fetch : String → Except E (List R))
        (hst : SearchState E R) (e : E), q ≠ "" →
        fetch q = Except.error e →
        useSearchEffect q fetch hst
          = ({ results := hst.results, loading := false,
               error := some e }, true)) := by
  refine ⟨fun st hashes v hnone => ?_, fun st hashes e => rfl,
    fun st hashes v h hmem hidx hpos => ?_,
    fun E R q fetch hst e hq hfetch => ?_⟩
  · simp only [search_knowledge, Except.ok.injEq]
    rw [List.flatten_eq_nil_iff]
    intro l hl
    rcases List.mem_map.1 hl with ⟨h, hh, rfl⟩
    simp [hnone h hh]
  · refine ⟨_, rfl, ?_⟩
    intro hjoin
    rw [List.flatten_eq_nil_iff] at hjoin
    have hmem2 : (List.range (st.index h)).map (fun i => (h, i))
        ∈ hashes.map (fun g =>
          if st.status g = some Status.indexed then
            (List.range (st.index g)).map (fun i => (g, i))
          else []) := by
      refine List.mem_map.2 ⟨h, hmem, ?_⟩
      simp [hidx]
    have := hjoin _ hmem2
    simp [List.range_eq_nil] at this
    omega
  · simp [useSearchEffect, hq, hfetch]

/-- Witness for C5: gateway failure on an empty system is surfaced,
and an errored fetch is stored by the hook. -/
theorem c5_empty_means_no_matches_witness :
    search_knowledge (Except.error QueryErr.EmbeddingUnavailable)
        initPipe ["h"]
      = Except.error QueryErr.EmbeddingUnavailable ∧
    useSearchEffect "q" (fun _ => Except.error (0 : Nat))
        (initSearchState Nat Nat)
      = ({ results := [], loading := false, error := some 0 }, true) :=
  ⟨c5_empty_means_no_matches.2.1 initPipe ["h"]
      QueryErr.EmbeddingUnavailable,
   c5_empty_means_no_matches.2.2.2 Nat Nat "q"
      (fun _ => Except.error 0) (initSearchState Nat Nat) 0
      (by decide) rfl⟩

/-- C10: for the empty (falsy) query string the `useSearch` hook
clears the result list without issuing any backend request and leaves
the loading flag and the error state untouched; from the initial hook
state this means empty results, no loading, no error. -/
theorem c10_empty_query_no_fetch (E R : Type)
    (fetch : String → Except E (List R)) (st : SearchState E R) :
    useSearchEffect "" fetch st
      = ({ results := [], loading := st.loading, error := st.error },
         false) ∧
    useSearchEffect "" fetch (initSearchState E R)
      = (initSearchState E R, false) := by
  constructor <;> simp [useSearchEffect, initSearchState]

/-! ## Chunker

Modelled from the spec: accumulate unit text until the running length
would exceed `max_chunk_size`; emit a chunk; start the next chunk by
re-including the trailing `chunk_overlap` characters of the previous
chunk content (or fewer, if the previous chunk is shorter than the
overlap); a single unit longer than `max_chunk_size` is split
internally by length; never emit an empty chunk.  Text is modelled as
a list of characters over an arbitrary alphabet. -/

/-- Trailing `ov` characters of a chunk — the whole chunk when it is
shorter than `ov`. -/
def tailOv {α : Type} (ov : Nat) (c : List α) : List α :=
  c.drop (c.length - ov)

/-- The list `p` is a prefix of the list `s`. -/
def beginsWith {α : Type} (p s : List α) : Prop :=
  s.take p.length = p

instance {α : Type} [DecidableEq α] (p s : List α) :
    Decidable (beginsWith p s) := by
  unfold beginsWith
  infer_instance

/-- Splitting core: place one unit into the accumulating chunk,
emitting full chunks of exactly `mx` characters while the unit
overflows the accumulator, carrying the trailing `ov` characters into
each successive chunk.  `fuel` bounds the recursion; one character of
the unit is consumed per round, so `u.length` fuel always suffices. -/
def placeUnitF {α : Type} (mx ov : Nat) :
    Nat → List (List α) → List α → List α → List (List α) × List α
  | 0, out, acc, u => (out, acc ++ u)
  | fuel + 1, out, acc, u =>
    if acc.length + u.length ≤ mx ∨ mx ≤ acc.length then
      (out, acc ++ u)
    else
      placeUnitF mx ov fuel
        (out ++ [acc ++ u.take (mx - acc.length)])
        (tailOv ov (acc ++ u.take (mx - acc.length)))
        (u.drop (mx - acc.length))

/-- Place one unit into the accumulating chunk. -/
def placeUnit {α : Type} (mx ov : Nat) (out : List (List α))
    (acc u : List α) : List (List α) × List α :=
  placeUnitF mx ov u.length out acc u

/-- One unit step of the Chunker: extend the accumulator when the
unit fits, otherwise emit the accumulated chunk (when nonempty) and
place the unit starting from the trailing overlap. -/
def chunkStep {α : Type} (mx ov : Nat) (st : List (List α) × List α)
    (u : List α) : List (List α) × List α :=
  if st.2.length + u.length ≤ mx then (st.1, st.2 ++ u)
  else if st.2.isEmpty then placeUnit mx ov st.1 st.2 u
  else placeUnit mx ov (st.1 ++ [st.2]) (tailOv ov st.2) u

/-- The Chunker: fold the unit sequence and flush the trailing
accumulator as the final chunk when nonempty. -/
def chunkUnits {α : Type} (mx ov : Nat) (units : List (List α)) :
    List (List α) :=
  let r := units.foldl (chunkStep mx ov) ([], [])
  if r.2.isEmpty then r.1 else r.1 ++ [r.2]

/-- Anchored overlap chain: each chunk begins with the trailing `ov`
characters of its predecessor, the first with the given anchor. -/
def chainF {α : Type} (ov : Nat) : List α → List (List α) → Prop
  | _, [] => True
  | p, c :: cs => beginsWith p c ∧ chainF ov (tailOv ov c) cs

/-- Concatenation of a chunk list with the leading `k` characters of
the first chunk and the overlap prefix of every later chunk removed —
the text represented by an overlapping chunk sequence. -/
def dropJoin {α : Type} (ov : Nat) : Nat → List (List α) → List α
  | _, [] => []
  | k, c :: cs => c.drop k ++ dropJoin ov (tailOv ov c).length cs

/-- The emitted prefix is accumulated on the left: the output list
parameter is a pure accumulator. -/
theorem placeUnitF_out {α : Type} (mx ov : Nat) :
    ∀ (fuel : Nat) (out : List (List α)) (acc u : List α),
      placeUnitF mx ov fuel out acc u
        = (out ++ (placeUnitF mx ov fuel [] acc u).1,
           (placeUnitF mx ov fuel [] acc u).2) := by
  intro fuel
  induction fuel with
  | zero => intro out acc u; simp [placeUnitF]
  | succ fuel ih =>
    intro out acc u
    by_cases hg : acc.length + u.length ≤ mx ∨ mx ≤ acc.length
    · simp [placeUnitF, hg]
    · simp only [placeUnitF, if_neg hg]
      rw [ih (out ++ [acc ++ u.take (mx - acc.length)]),
        ih ([] ++ [acc ++ u.take (mx - acc.length)])]
      simp

/-- Every chunk emitted by the splitting core has exactly `mx`
characters, and the final accumulator stays within `mx`. -/
theorem placeUnitF_bounds {α : Type} (mx ov : Nat) (h2 : ov < mx) :
    ∀ (fuel : Nat) (out : List (List α)) (acc u : List α),
      u.length ≤ fuel → acc.length < mx →
      (∀ c ∈ (placeUnitF mx ov fuel out acc u).1,
        c ∈ out ∨ (c ≠ [] ∧ c.length = mx)) ∧
      (placeUnitF mx ov fuel out acc u).2.length ≤ mx := by
  intro fuel
  induction fuel with
  | zero =>
    intro out acc u hu hacc
    have : u = [] := List.eq_nil_of_length_eq_zero (Nat.le_zero.1 hu)
    subst this
    exact ⟨fun c hc => Or.inl (by simpa [placeUnitF] using hc),
      by simpa [placeUnitF] using Nat.le_of_lt hacc⟩
  | succ fuel ih =>
    intro out acc u hu hacc
    by_cases hg : acc.length + u.length ≤ mx ∨ mx ≤ acc.length
    · have hlen : acc.length + u.length ≤ mx := by
        rcases hg with hg | hg
        · exact hg
        · omega
      refine ⟨fun c hc => Or.inl (by simpa [placeUnitF, hg] using hc), ?_⟩
      simpa [placeUnitF, hg] using hlen
    · have hng1 : mx < acc.length + u.length :=
        Nat.lt_of_not_le (not_or.1 hg).1
      have hng2 : acc.length < mx := Nat.lt_of_not_le (not_or.1 hg).2
      have htlt : mx - acc.length < u.length := by omega
      have hclen : (acc ++ u.take (mx - acc.length)).length = mx := by
        simp [List.length_take]
        omega
      have hacc2 :
          (tailOv ov (acc ++ u.take (mx - acc.length))).length < mx := by
        simp [tailOv, hclen]
        omega
      have hu2 : (u.drop (mx - acc.length)).length ≤ fuel := by
        simp [List.length_drop]
        omega
      have hrec := ih (out ++ [acc ++ u.take (mx - acc.length)])
        (tailOv ov (acc ++ u.take (mx - acc.length)))
        (u.drop (mx - acc.length)) hu2 hacc2
      refine ⟨fun c hc => ?_, ?_⟩
      · rcases hrec.1 c
          (by simpa only [placeUnitF, if_neg hg] using hc) with hmem | hnew
        · rcases List.mem_append.1 hmem with hmem | hmem
          · exact Or.inl hmem
          · refine Or.inr ?_
            have hc2 : c = acc ++ u.take (mx - acc.length) := by
              simpa using hmem
            subst hc2
            refine ⟨?_, hclen⟩
            intro hnil
            rw [hnil] at hclen
            simp at hclen
            omega
        · exact Or.inr hnew
      · simpa only [placeUnitF, if_neg hg] using hrec.2

/-- A nonempty unit leaves a nonempty final accumulator. -/
theorem placeUnitF_ne {α : Type} (mx ov : Nat) :
    ∀ (fuel : Nat) (out : List (List α)) (acc u : List α), u ≠ [] →
      (placeUnitF mx ov fuel out acc u).2 ≠ [] := by
  intro fuel
  induction fuel with
  | zero => intro out acc u hu; simp [placeUnitF, hu]
  | succ fuel ih =>
    intro out acc u hu
    by_cases hg : acc.length + u.length ≤ mx ∨ mx ≤ acc.length
    · simp [placeUnitF, hg, hu]
    · have hng1 : mx < acc.length + u.length :=
        Nat.lt_of_not_le (not_or.1 hg).1
      have hng2 : acc.length < mx := Nat.lt_of_not_le (not_or.1 hg).2
      have htlt : mx - acc.length < u.length := by omega
      have hdrop : u.drop (mx - acc.length) ≠ [] := by
        intro hnil
        have := congrArg List.length hnil
        simp [List.length_drop] at this
        omega
      simpa only [placeUnitF, if_neg hg] using ih _ _ _ hdrop

/-- Removing the overlap prefixes from the chunks produced by the
splitting core reproduces the accumulated text followed by the whole
unit: no text is discarded. -/
theorem placeUnitF_content {α : Type} (mx ov : Nat) :
    ∀ (fuel : Nat) (acc u : List α) (k : Nat), k ≤ acc.length →
      dropJoin ov k ((placeUnitF mx ov fuel [] acc u).1
          ++ [(placeUnitF mx ov fuel [] acc u).2])
        = acc.drop k ++ u := by
  intro fuel
  induction fuel with
  | zero =>
    intro acc u k hk
    have hzero : k - acc.length = 0 := Nat.sub_eq_zero_of_le hk
    simp [placeUnitF, dropJoin, List.drop_append_eq_append_drop, hzero]
  | succ fuel ih =>
    intro acc u k hk
    by_cases hg : acc.length + u.length ≤ mx ∨ mx ≤ acc.length
    · have hzero : k - acc.length = 0 := Nat.sub_eq_zero_of_le hk
      simp [placeUnitF, hg, dropJoin, List.drop_append_eq_append_drop,
        hzero]
    · simp only [placeUnitF, if_neg hg]
      rw [placeUnitF_out]
      simp only [List.nil_append, List.cons_append, List.append_assoc]
      rw [show ((acc ++ u.take (mx - acc.length))
          :: ((placeUnitF mx ov fuel []
            (tailOv ov (acc ++ u.take (mx - acc.length)))
            (u.drop (mx - acc.length))).1
          ++ [(placeUnitF mx ov fuel []
            (tailOv ov (acc ++ u.take (mx - acc.length)))
            (u.drop (mx - acc.length))).2]))
        = ((acc ++ u.take (mx - acc.length))
          :: ((placeUnitF mx ov fuel []
            (tailOv ov (acc ++ u.take (mx - acc.length)))
            (u.drop (mx - acc.length))).1
          ++ [(placeUnitF mx ov fuel []
            (tailOv ov (acc ++ u.take (mx - acc.length)))
            (u.drop (mx - acc.length))).2])) from rfl]
      rw [dropJoin]
      rw [ih (tailOv ov (acc ++ u.take (mx - acc.length)))
        (u.drop (mx - acc.length))
        ((tailOv ov (acc ++ u.take (mx - acc.length))).length)
        (le_refl _)]
      rw [List.drop_length]
      have hzero : k - acc.length = 0 := Nat.sub_eq_zero_of_le hk
      simp [List.drop_append_eq_append_drop, hzero, List.append_assoc]

/-- Every chunk produced by the splitting core extends the trailing
overlap of its predecessor; the first extends the given accumulator. -/
theorem placeUnitF_chain {α : Type} (mx ov : Nat) :
    ∀ (fuel : Nat) (acc u : List α),
      chainF ov acc ((placeUnitF mx ov fuel [] acc u).1
        ++ [(placeUnitF mx ov fuel [] acc u).2]) := by
  intro fuel
  induction fuel with
  | zero =>
    intro acc u
    simp [placeUnitF, chainF, beginsWith, List.take_left]
  | succ fuel ih =>
    intro acc u
    by_cases hg : acc.length + u.length ≤ mx ∨ mx ≤ acc.length
    · simp [placeUnitF, hg, chainF, beginsWith, List.take_left]
    · simp only [placeUnitF, if_neg hg]
      rw [placeUnitF_out]
      simp only [List.nil_append, List.cons_append]
      exact ⟨by simp [beginsWith, List.take_left], ih _ _⟩

/-- A prefix of a list extended on the right stays a prefix. -/
theorem beginsWith_append_right {α : Type} {p s : List α}
    (h : beginsWith p s) (t : List α) : beginsWith p (s ++ t) := by
  have hlen : p.length ≤ s.length := by
    have := congrArg List.length h
    simp at this
    omega
  unfold beginsWith at h ⊢
  rw [List.take_append_eq_append_take,
    Nat.sub_eq_zero_of_le hlen]
  simp [h]

/-- Extending the final chunk on the right preserves the chain. -/
theorem chainF_extend_last {α : Type} (ov : Nat) :
    ∀ (l : List (List α)) (p y u : List α),
      chainF ov p (l ++ [y]) → chainF ov p (l ++ [y ++ u]) := by
  intro l
  induction l with
  | nil =>
    intro p y u h
    exact ⟨beginsWith_append_right h.1 u, trivial⟩
  | cons c cs ih =>
    intro p y u h
    exact ⟨h.1, ih _ y u h.2⟩

/-- Chains concatenate when the continuation is anchored at the
trailing overlap of the final chunk. -/
theorem chainF_append_chunks {α : Type} (ov : Nat) :
    ∀ (l : List (List α)) (p y : List α) (m : List (List α)),
      chainF ov p (l ++ [y]) → chainF ov (tailOv ov y) m →
      chainF ov p (l ++ y :: m) := by
  intro l
  induction l with
  | nil =>
    intro p y m h hm
    exact ⟨h.1, hm⟩
  | cons c cs ih =>
    intro p y m h hm
    exact ⟨h.1, ih _ y m h.2 hm⟩

/-- A chain restricts to any prefix of the chunk list. -/
theorem chainF_prefix_of_append {α : Type} (ov : Nat) :
    ∀ (l m : List (List α)) (p : List α),
      chainF ov p (l ++ m) → chainF ov p l := by
  intro l
  induction l with
  | nil => intro m p _; trivial
  | cons c cs ih =>
    intro m p h
    exact ⟨h.1, ih m _ h.2⟩

/-- Anchored chains give the pairwise consecutive-overlap property. -/
theorem chainF_pairwise {α : Type} (ov : Nat) :
    ∀ (l : List (List α)) (p : List α), chainF ov p l →
      ∀ (i : Nat) (c₁ c₂ : List α), l[i]? = some c₁ →
        l[i + 1]? = some c₂ → beginsWith (tailOv ov c₁) c₂ := by
  intro l
  induction l with
  | nil => intro p _ i c₁ c₂ h1 _; simp at h1
  | cons c cs ih =>
    intro p h i c₁ c₂ h1 h2
    cases i with
    | zero =>
      simp at h1
      subst h1
      cases cs with
      | nil => simp at h2
      | cons d ds =>
        simp at h2
        subst h2
        exact h.2.1
    | succ i =>
      simp only [List.getElem?_cons_succ] at h1 h2
      exact ih _ h.2 i c₁ c₂ h1 h2

/-- Invariant carried through the Chunker fold: emitted chunks are
nonempty and within `mx`, the accumulator is within `mx` and nonempty
once anything has been emitted, and the whole sequence forms an
overlap chain. -/
def ChunkInv {α : Type} (mx ov : Nat)
    (st : List (List α) × List α) : Prop :=
  (∀ c ∈ st.1, c ≠ [] ∧ c.length ≤ mx) ∧ st.2.length ≤ mx ∧
  (st.1 ≠ [] → st.2 ≠ []) ∧ chainF ov [] (st.1 ++ [st.2])

/-- The invariant holds for the initial Chunker state. -/
theorem chunkInv_init {α : Type} (mx ov : Nat) :
    ChunkInv mx ov (([], []) : List (List α) × List α) :=
  ⟨by simp, by simp, by simp, by simp [chainF, beginsWith]⟩

/-- One unit step of the Chunker preserves the fold invariant. -/
theorem chunkStep_inv {α : Type} (mx ov : Nat) (h1 : 0 < mx)
    (h2 : ov < mx) (st : List (List α) × List α) (u : List α)
    (hinv : ChunkInv mx ov st) :
    ChunkInv mx ov (chunkStep mx ov st u) := by
  obtain ⟨hb, hacc, hne, hch⟩ := hinv
  by_cases hg : st.2.length + u.length ≤ mx
  · simp only [chunkStep, if_pos hg]
    refine ⟨hb, by simpa using hg, ?_, ?_⟩
    · intro hne1 happ
      rcases List.append_eq_nil.1 happ with ⟨h2e, _⟩
      exact hne hne1 h2e
    · exact chainF_extend_last ov st.1 [] st.2 u hch
  · by_cases he : st.2.isEmpty
    · have h2e : st.2 = [] := by simpa [List.isEmpty_iff] using he
      have h1e : st.1 = [] := by
        by_contra hne1
        exact (hne hne1) h2e
      have hu : u ≠ [] := by
        intro hnil
        rw [h2e, hnil] at hg
        simp at hg
      simp only [chunkStep, if_neg hg, if_pos he]
      rw [h1e, h2e]
      unfold placeUnit
      have hbounds := placeUnitF_bounds mx ov h2 u.length [] [] u
        (le_refl _) h1
      have hne2 := placeUnitF_ne mx ov u.length [] [] u hu
      have hchain := placeUnitF_chain mx ov u.length [] u
      refine ⟨?_, hbounds.2, fun _ => hne2, ?_⟩
      · intro c hc
        rcases hbounds.1 c hc with hmem | hnew
        · simp at hmem
        · exact ⟨hnew.1, le_of_eq hnew.2⟩
      · simpa [chainF] using hchain
    · have h2ne : st.2 ≠ [] := by simpa [List.isEmpty_iff] using he
      have hu : u ≠ [] := by
        intro hnil
        rw [hnil] at hg
        simp at hg
        omega
      simp only [chunkStep, if_neg hg, if_neg he]
      unfold placeUnit
      rw [placeUnitF_out]
      have hacc0 : (tailOv ov st.2).length < mx := by
        simp [tailOv]
        omega
      have hbounds := placeUnitF_bounds mx ov h2 u.length []
        (tailOv ov st.2) u (le_refl _) hacc0
      have hne2 := placeUnitF_ne mx ov u.length [] (tailOv ov st.2) u hu
      have hchain := placeUnitF_chain mx ov u.length (tailOv ov st.2) u
      refine ⟨?_, hbounds.2, ?_, ?_⟩
      · intro c hc
        rcases List.mem_append.1 hc with hc | hc
        · rcases List.mem_append.1 hc with hc | hc
          · exact hb c hc
          · have hc2 : c = st.2 := by simpa using hc
            subst hc2
            exact ⟨h2ne, hacc⟩
        · rcases hbounds.1 c hc with hmem | hnew
          · simp at hmem
          · exact ⟨hnew.1, le_of_eq hnew.2⟩
      · intro _
        exact hne2
      · have hgoal := chainF_append_chunks ov st.1 [] st.2
          ((placeUnitF mx ov u.length [] (tailOv ov st.2) u).1
            ++ [(placeUnitF mx ov u.length [] (tailOv ov st.2) u).2])
          hch hchain
        simpa [List.append_assoc] using hgoal

/-- The Chunker fold preserves the invariant over any unit list. -/
theorem foldl_chunkStep_inv {α : Type} (mx ov : Nat) (h1 : 0 < mx)
    (h2 : ov < mx) :
    ∀ (units : List (List α)) (st : List (List α) × List α),
      ChunkInv mx ov st →
      ChunkInv mx ov (units.foldl (chunkStep mx ov) st) := by
  intro units
  induction units with
  | nil => intro st h; exact h
  | cons u us ih =>
    intro st h
    exact ih _ (chunkStep_inv mx ov h1 h2 st u h)

/-- The final chunk list of the Chunker is an overlap chain anchored
at the empty prefix. -/
theorem chunkUnits_chain {α : Type} (mx ov : Nat) (h1 : 0 < mx)
    (h2 : ov < mx) (units : List (List α)) :
    chainF ov [] (chunkUnits mx ov units) := by
  have hinv := foldl_chunkStep_inv mx ov h1 h2 units ([], [])
    (chunkInv_init mx ov)
  obtain ⟨hb, hacc, hne, hch⟩ := hinv
  unfold chunkUnits
  by_cases he : (units.foldl (chunkStep mx ov) ([], [])).2.isEmpty
  · rw [if_pos he]
    exact chainF_prefix_of_append ov _ _ [] hch
  · rw [if_neg he]
    exact hch

/-- C7: with a positive maximum chunk size and an overlap smaller than
it, every chunk the Chunker emits is nonempty and at most
`max_chunk_size` characters long, and a single unit longer than
`max_chunk_size` is split by length into at least two chunks whose
overlap-stripped concatenation reproduces the unit — nothing is
discarded. -/
theorem c7_chunk_size_bounds {α : Type} (mx ov : Nat) (h1 : 0 < mx)
    (h2 : ov < mx) (units : List (List α)) (u : List α) :
    (∀ c ∈ chunkUnits mx ov units, c ≠ [] ∧ c.length ≤ mx) ∧
    (mx < u.length →
      2 ≤ (chunkUnits mx ov [u]).length ∧
      dropJoin ov 0 (chunkUnits mx ov [u]) = u) := by
  constructor
  · have hinv := foldl_chunkStep_inv mx ov h1 h2 units ([], [])
      (chunkInv_init mx ov)
    obtain ⟨hb, hacc, hne, hch⟩ := hinv
    intro c hc
    unfold chunkUnits at hc
    by_cases he : (units.foldl (chunkStep mx ov) ([], [])).2.isEmpty
    · rw [if_pos he] at hc
      exact hb c hc
    · rw [if_neg he] at hc
      rcases List.mem_append.1 hc with hc | hc
      · exact hb c hc
      · have hc2 : c = (units.foldl (chunkStep mx ov) ([], [])).2 := by
          simpa using hc
        subst hc2
        exact ⟨by simpa [List.isEmpty_iff] using he, hacc⟩
  · intro hlong
    have hu : u ≠ [] := by
      intro hnil
      rw [hnil] at hlong
      simp at hlong
    have hg : ¬(u.length ≤ mx) := by omega
    have hne2 := placeUnitF_ne mx ov u.length [] [] u hu
    have hbounds := placeUnitF_bounds mx ov h2 u.length [] [] u
      (le_refl _) h1
    have hstep : chunkUnits mx ov [u]
        = (placeUnitF mx ov u.length [] [] u).1
          ++ [(placeUnitF mx ov u.length [] [] u).2] := by
      unfold chunkUnits
      simp only [List.foldl]
      rw [show chunkStep mx ov ([], []) u
          = placeUnit mx ov [] [] u from by
        simp [chunkStep, hg]]
      unfold placeUnit
      rw [if_neg (by simpa [List.isEmpty_iff] using hne2)]
    rw [hstep]
    have hcontent := placeUnitF_content mx ov u.length [] u 0 (by simp)
    have hcontent2 : dropJoin ov 0
        ((placeUnitF mx ov u.length [] [] u).1
          ++ [(placeUnitF mx ov u.length [] [] u).2]) = u := by
      simpa using hcontent
    refine ⟨?_, hcontent2⟩
    by_cases hcs : (placeUnitF mx ov u.length [] [] u).1 = []
    · exfalso
      rw [hcs] at hcontent2
      have : (placeUnitF mx ov u.length [] [] u).2 = u := by
        simpa [dropJoin] using hcontent2
      rw [this] at hbounds
      omega
    · have : 1 ≤ (placeUnitF mx ov u.length [] [] u).1.length :=
        List.length_pos.2 hcs
      simp [List.length_append]
      omega

/-- The three-paragraph scenario input: paragraphs of 400, 1200 and
300 characters, written over the alphabet {0, 1, 2} marking the
paragraph of origin. -/
def scenarioUnits : List (List Nat) :=
  [List.replicate 400 0, List.replicate 1200 1, List.replicate 300 2]

/-- The chunks the Chunker produces for the scenario under
`max_chunk_size = 1000`, `overlap = 100`. -/
def scenarioChunks : List (List Nat) :=
  [List.replicate 400 0,
   List.replicate 100 0 ++ List.replicate 900 1,
   List.replicate 400 1 ++ List.replicate 300 2]

set_option maxRecDepth 40000 in
/-- C8: every later chunk begins with the trailing `chunk_overlap`
characters of its predecessor (the whole predecessor when it is
shorter), and in the 400/1200/300 scenario with
`max_chunk_size = 1000`, `overlap = 100` the second paragraph is
split across at least two chunks, every chunk stays within 1000
characters, and chunk 2 begins with the final 100 characters of
chunk 1. -/
theorem c8_consecutive_overlap {α : Type} (mx ov : Nat) (h1 : 0 < mx)
    (h2 : ov < mx) (units : List (List α)) :
    (∀ (i : Nat) (c₁ c₂ : List α),
      (chunkUnits mx ov units)[i]? = some c₁ →
      (chunkUnits mx ov units)[i + 1]? = some c₂ →
      beginsWith (tailOv ov c₁) c₂) ∧
    (chunkUnits 1000 100 scenarioUnits = scenarioChunks ∧
     2 ≤ scenarioChunks.countP (fun c => c.contains 1) ∧
     (∀ c ∈ scenarioChunks, c.length ≤ 1000) ∧
     beginsWith (tailOv 100 (List.replicate 400 (0 : Nat)))
       (List.replicate 100 0 ++ List.replicate 900 1)) := by
  constructor
  · exact fun i c₁ c₂ ha hb =>
      chainF_pairwise ov (chunkUnits mx ov units) []
        (chunkUnits_chain mx ov h1 h2 units) i c₁ c₂ ha hb
  · refine ⟨by decide, by decide, by decide, by decide⟩

/-- Witness for C7: the bounds instantiated for a concrete oversized
unit, `max_chunk_size = 5`, `overlap = 2`. -/
theorem c7_chunk_size_bounds_witness :
    0 < 5 ∧
    ((∀ c ∈ chunkUnits 5 2 [[(1 : Nat), 2, 3], [4, 5, 6]],
        c ≠ [] ∧ c.length ≤ 5) ∧
      (5 < ([(1 : Nat), 2, 3, 4, 5, 6, 7]).length →
        2 ≤ (chunkUnits 5 2 [[(1 : Nat), 2, 3, 4, 5, 6, 7]]).length ∧
        dropJoin 2 0 (chunkUnits 5 2 [[(1 : Nat), 2, 3, 4, 5, 6, 7]])
          = [1, 2, 3, 4, 5, 6, 7])) :=
  ⟨by decide, c7_chunk_size_bounds 5 2 (by decide) (by decide)
    [[1, 2, 3], [4, 5, 6]] [1, 2, 3, 4, 5, 6, 7]⟩

set_option maxRecDepth 40000 in
/-- Witness for C8: the overlap chain instantiated on a concrete
input with `max_chunk_size = 5`, `overlap = 2`. -/
theorem c8_consecutive_overlap_witness :
    0 < 5 ∧
    ((∀ (i : Nat) (c₁ c₂ : List Nat),
        (chunkUnits 5 2 [[1, 2, 3, 4, 5, 6, 7]])[i]? = some c₁ →
        (chunkUnits 5 2 [[1, 2, 3, 4, 5, 6, 7]])[i + 1]? = some c₂ →
        beginsWith (tailOv 2 c₁) c₂) ∧
      (chunkUnits 1000 100 scenarioUnits = scenarioChunks ∧
       2 ≤ scenarioChunks.countP (fun c => c.contains 1) ∧
       (∀ c ∈ scenarioChunks, c.length ≤ 1000) ∧
       beginsWith (tailOv 100 (List.replicate 400 (0 : Nat)))
         (List.replicate 100 0 ++ List.replicate 900 1))) :=
  ⟨by decide, c8_consecutive_overlap 5 2 (by decide) (by decide)
    [[1, 2, 3, 4, 5, 6, 7]]⟩

end MCPOrg
